import Mathlib

/-
Verification of the PyExpressions arithmetic-expression parser/evaluator
(src/pyexpr.py) against its natural-language specification.

The embedding models the source faithfully:
 * strings are `List Char`;
 * the operator regex `(?<!^)(?<!\/|\(|-)X` of `ExpressionBuilder.operator_regex`
   becomes `findOps`, which records every position `i > 0` whose character is
   the operator and whose predecessor is not `/`, `(` or `-`;
 * `ExpressionBuilder._mask_brackets` (re.sub of `\([^()]+\)` by `B`s, repeated
   while a `(` remains) becomes `maskOnce`/`maskBrackets`; the repetition can
   genuinely fail to terminate (e.g. on `"(5+3"`), which Python aborts with a
   RecursionError at its recursion limit, modeled by the fuel `bracketFuel`;
 * Python numbers (ints and floats) are idealized as exact rationals `ℚ`;
   `Expression.calculate` evaluates `eval(left + op.replace("^","**") + right)`
   on strings, so the unary sign of an operand rendered with a leading `-`
   binds *less* tightly than `**`: `eval("-2**2") = -4`.  `pyEvalBin` models
   exactly this.  A fractional power of a non-negative base whose exact value
   is irrational has no rational counterpart; Python returns a float
   approximation, abstracted here by the parameter `fpow` that every
   evaluation-level definition carries.  Whenever the exact value is rational
   (`qNthRoot` succeeds) the model computes it and `fpow` is not consulted.
-/

namespace PyExpr

/-- Failure modes of the Python code, as observed by a caller of
`Expression.parse` / `Expression.calculate`.  `valueErrorOperand` is the
ValueError raised by `Expression.no_funny_stuff`; `valueErrorBuild` is the
ValueError `"Failed to build expression"` that `ExpressionBuilder.build`
raises after catching a TypeError; `typeErrorNone` is that TypeError
(`operator_regex.replace("%", None)` with the `None` returned by
`_get_lowest_priority_operator`); `recursionError` is Python's RecursionError
from the unbounded `_mask_brackets` recursion; `zeroDivision` and `nameError`
arise inside `eval` at calculate time; `badLiteral` stands for an eval-time
SyntaxError on a malformed numeric token. -/
inductive PyErr : Type where
  | valueErrorOperand : PyErr
  | valueErrorBuild : PyErr
  | typeErrorNone : PyErr
  | recursionError : PyErr
  | indexError : PyErr
  | zeroDivision : PyErr
  | nameError : PyErr
  | badLiteral : PyErr
deriving DecidableEq, Repr

/-- The ASCII digits, the only digit characters relevant to the literals the
program manipulates. -/
def digitChars : List Char := ['0', '1', '2', '3', '4', '5', '6', '7', '8', '9']

/-- Decidable ASCII-digit test used by the literal grammar. -/
def isDig (c : Char) : Bool := digitChars.contains c

/-- Whitespace accepted by Python's `float()` around a literal. -/
def isSpaceChar (c : Char) : Bool :=
  c = ' ' || c = '\t' || c = '\n' || c = '\r'

/-- The five operator characters in the order the builder scans them:
`reversed(list(Operator))`, i.e. ascending priority `+ - / * ^`
(src/pyexpr.py line 165). -/
def operators : List Char := ['+', '-', '/', '*', '^']

/-- The negative lookbehind of `ExpressionBuilder.operator_regex`: a match is
rejected when the preceding character is `/`, `(` or `-`; the `(?<!^)` part is
the `none` case (no preceding character, i.e. position 0). -/
def prevOk : Option Char → Bool
  | none => false
  | some p => !(p = '/' || p = '(' || p = '-')

/-- All match positions of the compiled operator regex on a string, scanning
left to right with the previous character threaded through (`re.finditer`).
`i` is the absolute index of the head of the remaining list. -/
def findOps (op : Char) : Option Char → Nat → List Char → List Nat
  | _, _, [] => []
  | prev, i, c :: rest =>
    (if c == op && prevOk prev then [i] else []) ++ findOps op (some c) (i + 1) rest

/-- Scan for the closing parenthesis of an innermost group: succeeds when the
first parenthesis character encountered is `)` and at least one character
precedes it (the `[^()]+` of `bracket_regex` requires a non-empty body).
Returns the body length and the remainder after `)`. -/
def findClose : List Char → Nat → Option (Nat × List Char)
  | [], _ => none
  | c :: rest, k =>
    if c = ')' then (if k = 0 then none else some (k, rest))
    else if c = '(' then none
    else findClose rest (k + 1)

/-- One pass of `re.sub(bracket_regex, B-mask, expr)`: each innermost group
`( body )` is replaced by `B`s of the same total length; scanning resumes
after the replaced group.  Fueled to keep the definition structural; the fuel
`l.length + 1` used by `maskOnce` is always sufficient because every step
consumes at least one character. -/
def maskOnceF : Nat → List Char → List Char
  | 0, l => l
  | _ + 1, [] => []
  | f + 1, c :: rest =>
    if c = '(' then
      match findClose rest 0 with
      | some (k, rest2) => List.replicate (k + 2) 'B' ++ maskOnceF f rest2
      | none => c :: maskOnceF f rest
    else c :: maskOnceF f rest

/-- One full substitution pass of the bracket regex. -/
def maskOnce (l : List Char) : List Char := maskOnceF (l.length + 1) l

/-- Python's default recursion limit, bounding the `_mask_brackets`
self-recursion. -/
def bracketFuel : Nat := 1000

/-- `ExpressionBuilder._mask_brackets`: substitute innermost groups, and while
a `(` remains, recurse on the result.  On input such as `"(5+3"` the
substitution is the identity while `(` remains, so Python recurses until its
recursion limit and dies with RecursionError: the `none` result. -/
def maskBrackets : Nat → List Char → Option (List Char)
  | 0, _ => none
  | f + 1, l =>
    let m := maskOnce l
    if '(' ∈ m then maskBrackets f m else some m

/-- `ExpressionBuilder._get_lowest_priority_operator`: mask brackets, then
return the first operator (in ascending priority order) with a regex match;
`none` models Python's implicit `return None`. -/
def getLowestPriorityOperator (l : List Char) : Except PyErr (Option Char) :=
  match maskBrackets bracketFuel l with
  | none => .error .recursionError
  | some m => .ok (operators.find? (fun op => !(findOps op none 0 m).isEmpty))

/-- `ExpressionBuilder.parse_terms`: mask brackets, take the start index of the
rightmost regex match of `op`, and split the original string there, omitting
the operator character.  The empty-match case (`[-1]` on an empty list would
be an IndexError) is unreachable when called after
`_get_lowest_priority_operator`. -/
def parseTerms (l : List Char) (op : Char) : Except PyErr (List Char × List Char) :=
  match maskBrackets bracketFuel l with
  | none => .error .recursionError
  | some m =>
    match (findOps op none 0 m).getLast? with
    | none => .error .indexError
    | some i => .ok (l.take i, l.drop (i + 1))

/-- `ExpressionBuilder.count_operators`: total number of regex matches over all
five operators on the raw (unmasked) string. -/
def countOperators (l : List Char) : Nat :=
  (operators.map (fun op => (findOps op none 0 l).length)).sum

mutual
/-- The `Expression` node: left operand, right operand, operator character and
the `is_within_brackets` flag. -/
inductive Expr : Type where
  | mk : Operand → Operand → Char → Bool → Expr

/-- An operand is either a raw substring (a Python `str`) or a nested
`Expression`, exactly the `Union[Expression, str]` of the source. -/
inductive Operand : Type where
  | ofStr : List Char → Operand
  | ofExpr : Expr → Operand
end

mutual
/-- The `_str_representation` attribute computed by `Expression.__init__`:
`str(left) + operator + str(right)`, wrapped in parentheses when
`is_within_brackets` was set. -/
def strRepr : Expr → List Char
  | .mk l r op br =>
    let core := operandStr l ++ op :: operandStr r
    if br then '(' :: (core ++ [')']) else core

/-- Python `str()` of an operand: a raw string is itself, a nested expression
renders via its `_str_representation`. -/
def operandStr : Operand → List Char
  | .ofStr s => s
  | .ofExpr e => strRepr e
end

/-- Python numbers (ints and finite floats), idealized as exact fractions.
The fraction is *not* kept normalized — `den` is always positive for every
value the program produces, and two fractions denote the same Python number
precisely when their cross products agree.  Claim statements read a `Frac`
through `Frac.val` below, its value as a rational number.  (Mathlib's `ℚ`
cannot serve as the computation type directly: its normalizing arithmetic
does not reduce definitionally, which would make the executable model
impossible to evaluate inside proofs.) -/
structure Frac : Type where
  num : Int
  den : Nat
deriving DecidableEq, Repr

/-- The rational value of a fraction. -/
def Frac.val (f : Frac) : ℚ := (f.num : ℚ) / (f.den : ℚ)

/-- Exact addition. -/
def Frac.add (a b : Frac) : Frac := ⟨a.num * b.den + b.num * a.den, a.den * b.den⟩

/-- Exact subtraction. -/
def Frac.sub (a b : Frac) : Frac := ⟨a.num * b.den - b.num * a.den, a.den * b.den⟩

/-- Exact multiplication. -/
def Frac.mul (a b : Frac) : Frac := ⟨a.num * b.num, a.den * b.den⟩

/-- Exact division (the divisor's sign moves to the numerator so the
denominator stays a natural number); only used behind the zero-divisor
guard. -/
def Frac.div (a b : Frac) : Frac :=
  ⟨a.num * b.den * (if b.num < 0 then -1 else 1), a.den * b.num.natAbs⟩

/-- Negation. -/
def Frac.neg (a : Frac) : Frac := ⟨-a.num, a.den⟩

/-- Absolute value. -/
def Frac.abs (a : Frac) : Frac := ⟨(a.num.natAbs : Int), a.den⟩

/-- Sign test (the denominator of every produced fraction is positive, so the
numerator carries the sign). -/
def Frac.isNeg (a : Frac) : Bool := a.num < 0

/-- Zero test. -/
def Frac.isZero (a : Frac) : Bool := a.num == 0

/-- Consume a run of digits (Python also allows a single `_` between two
digits).  Returns the accumulated value, the number of digits consumed and
the remainder. -/
def parseDigitsCore : List Char → Nat → Nat → Nat × Nat × List Char
  | [], acc, k => (acc, k, [])
  | c :: rest, acc, k =>
    if isDig c then parseDigitsCore rest (10 * acc + (c.toNat - 48)) (k + 1)
    else if c = '_' && k != 0 then
      match rest with
      | d :: _ => if isDig d then parseDigitsCore rest acc k else (acc, k, c :: rest)
      | [] => (acc, k, [c])
    else (acc, k, c :: rest)

/-- Optional exponent part `e`/`E` with optional sign; a bare marker with no
digits invalidates the whole literal, as in Python. -/
def parseExponent (q : Frac) (l : List Char) : Option (Frac × List Char) :=
  match l with
  | c :: rest =>
    if c = 'e' || c = 'E' then
      let (sgn, r2) : Bool × List Char :=
        match rest with
        | '+' :: r => (false, r)
        | '-' :: r => (true, r)
        | _ => (false, rest)
      let (v, k, r3) := parseDigitsCore r2 0 0
      if k = 0 then none
      else some (if sgn then ⟨q.num, q.den * 10 ^ v⟩ else ⟨q.num * (10 ^ v : Nat), q.den⟩, r3)
    else some (q, l)
  | [] => some (q, [])

/-- An unsigned Python numeric literal: `D+ [. D*] [exp]` or `. D+ [exp]`.
Returns the exact value and the unconsumed remainder. -/
def parseNumber (l : List Char) : Option (Frac × List Char) :=
  if l.head? == some '.' then
    let (f, j, r2) := parseDigitsCore (l.drop 1) 0 0
    if j = 0 then none else parseExponent ⟨(f : Int), 10 ^ j⟩ r2
  else
    let (v, k, r1) := parseDigitsCore l 0 0
    if k = 0 then none
    else
      if r1.head? == some '.' then
        let (f, j, r3) := parseDigitsCore (r1.drop 1) 0 0
        parseExponent ⟨(v : Int) * (10 ^ j : Nat) + (f : Int), 10 ^ j⟩ r3
      else parseExponent ⟨(v : Int), 1⟩ r1

/-- Case-insensitive `inf`/`infinity`/`nan`, which `float()` accepts. -/
def isInfNan (l : List Char) : Bool :=
  let w := l.map Char.toLower
  w == ['i', 'n', 'f'] || w == ['i', 'n', 'f', 'i', 'n', 'i', 't', 'y'] ||
    w == ['n', 'a', 'n']

/-- Strip trailing whitespace. -/
def stripTail (l : List Char) : List Char :=
  (l.reverse.dropWhile isSpaceChar).reverse

/-- Python's `float(s)` acceptance test used by `Expression.no_funny_stuff`:
optional surrounding whitespace, optional sign, then `inf`/`infinity`/`nan`
(case-insensitive) or a complete numeric literal. -/
def pyFloatParseable (s : List Char) : Bool :=
  let t := stripTail (s.dropWhile isSpaceChar)
  let t2 : List Char :=
    if t.head? == some '+' || t.head? == some '-' then t.drop 1 else t
  isInfNan t2 ||
    (match parseNumber t2 with
     | some (_, rest) => rest.isEmpty
     | none => false)

/-- `Expression.no_funny_stuff` on one operand: a string must be
float-parseable; a nested `Expression` is always accepted. -/
def validOperand : Operand → Bool
  | .ofStr s => pyFloatParseable s
  | .ofExpr _ => true

/-- The `Expression` constructor: `no_funny_stuff` validation (operands
float-parseable or nested expressions, operator among the five), then the node
is built, remembering `is_within_brackets`. -/
def mkExpression (left right : Operand) (op : Char) (br : Bool) : Except PyErr Expr :=
  if validOperand left && validOperand right && operators.contains op then
    .ok (.mk left right op br)
  else .error .valueErrorOperand

/-- `ExpressionBuilder._build_expression`, fueled by the length of the string
(each recursive call receives a strictly shorter substring, so `l.length + 1`
at top level never exhausts).  Splits at the lowest-priority operator, then for
each side: a side containing operator matches is built recursively — stripped
of its outer parentheses (with `is_within_brackets = True`) when it both
starts with `(` and ends with `)` — and a side without matches stays a raw
string leaf. -/
def buildExpr : Nat → List Char → Bool → Except PyErr Expr
  | 0, _, _ => .error .recursionError
  | fuel + 1, l, br =>
    match getLowestPriorityOperator l with
    | .error e => .error e
    | .ok none => .error .typeErrorNone
    | .ok (some op) =>
      match parseTerms l op with
      | .error e => .error e
      | .ok (left, right) =>
        match (if 0 < countOperators left then
                 if left.head? == some '(' && left.getLast? == some ')' then
                   (buildExpr fuel ((left.drop 1).dropLast) true).map .ofExpr
                 else (buildExpr fuel left false).map .ofExpr
               else .ok (.ofStr left)) with
        | .error e => .error e
        | .ok lOp =>
          match (if 0 < countOperators right then
                   if right.head? == some '(' && right.getLast? == some ')' then
                     (buildExpr fuel ((right.drop 1).dropLast) true).map .ofExpr
                   else (buildExpr fuel right false).map .ofExpr
                 else .ok (.ofStr right)) with
          | .error e => .error e
          | .ok rOp => mkExpression lOp rOp op br

/-- `ExpressionBuilder.build`: run `_build_expression` on the raw string and
convert a TypeError (operator `None`) into the ValueError
`"Failed to build expression"`. -/
def build (l : List Char) : Except PyErr Expr :=
  match buildExpr (l.length + 1) l false with
  | .error .typeErrorNone => .error .valueErrorBuild
  | r => r

/-- `Expression.parse`, the only entry point taking a raw string. -/
def pyParse (s : String) : Except PyErr Expr := build s.data

/-- What `Expression.resolve_operand` hands to `eval`: either the raw operand
string itself, or `str(result)` of a recursively calculated sub-expression.
Python's `repr`/`str` of a finite number round-trips exactly, so the
re-parsed token of a computed value is modeled by the value together with its
sign (the leading `-` of `str()` when the value is negative matters for
`**`). -/
inductive Resolved : Type where
  | lit : List Char → Resolved
  | num : Frac → Resolved

/-- Exact `k`-th root of a natural number, if one exists. -/
def natRoot (m k : Nat) : Option Nat :=
  (List.range (m + 2)).find? (fun r => r ^ k == m)

/-- Exact power of a fraction by an integer exponent (the reciprocal keeps the
denominator natural); only used where `0 ^ negative` has been ruled out. -/
def Frac.zpow (b : Frac) (k : Int) : Frac :=
  if 0 ≤ k then ⟨b.num ^ k.toNat, b.den ^ k.toNat⟩
  else
    let n := b.num ^ (-k).toNat
    let d := b.den ^ (-k).toNat
    if n < 0 then ⟨-(d : Int), n.natAbs⟩ else ⟨(d : Int), n.natAbs⟩

/-- Exact `k`-th root of a non-negative fraction, if one exists: numerator and
denominator of the gcd-reduced fraction must both be perfect `k`-th powers
(for a reduced fraction and `k` coprime to the exponent numerator this is
exactly rationality of the real root). -/
def fracNthRoot (b : Frac) (k : Nat) : Option Frac :=
  let n := b.num.toNat
  let g := Nat.gcd n b.den
  match natRoot (n / g) k, natRoot (b.den / g) k with
  | some rn, some rd => some ⟨(rn : Int), rd⟩
  | _, _ => none

/-- Python `x ** y` for a non-negative base `x` (inside the eval string the
base token is always unsigned).  The exponent value is reduced to `p/q` in
lowest terms: an integer exponent (`q = 1`) gives an exact power; a fractional
exponent whose exact real root is rational gives that exact value; otherwise
the result is irrational and Python returns a float approximation, abstracted
by the parameter `fpow`. -/
def mathPow (fpow : Frac → Frac → Frac) (x y : Frac) : Frac :=
  let g := Nat.gcd y.num.natAbs y.den
  let p : Int := y.num / (g : Int)
  let q : Nat := y.den / g
  if q = 1 then x.zpow p
  else
    match fracNthRoot x q with
    | some r => r.zpow p
    | none => fpow x y

/-- Python `x ** y` with its ZeroDivisionError on `0 ** negative`. -/
def pyPosPow (fpow : Frac → Frac → Frac) (b e : Frac) : Except PyErr Frac :=
  if b.isZero && e.isNeg then .error .zeroDivision
  else .ok (mathPow fpow b e)

/-- How `eval` reads one operand token of the concatenated expression string:
skip whitespace, take an optional sign, then either an identifier — `inf`,
`nan`, … are *names*, unbound in `eval`'s environment, hence NameError — or a
numeric literal that must consume the rest of the token. -/
def pyEvalLitParse (s : List Char) : Except PyErr (Bool × Frac) :=
  let t := s.dropWhile isSpaceChar
  let sign : Bool := t.head? == some '-'
  let t2 : List Char :=
    if t.head? == some '-' || t.head? == some '+' then t.drop 1 else t
  match t2 with
  | c :: _ =>
    if c.isAlpha || c = '_' then .error .nameError
    else
      match parseNumber t2 with
      | some (q, rest) =>
        if (rest.dropWhile isSpaceChar).isEmpty then .ok (sign, q) else .error .badLiteral
      | none => .error .badLiteral
  | [] => .error .badLiteral

/-- Sign and magnitude of a resolved operand as `eval` sees its token. -/
def resolvedSignMag : Resolved → Except PyErr (Bool × Frac)
  | .lit s => pyEvalLitParse s
  | .num q => .ok (q.isNeg, q.abs)

/-- `eval(left + op.replace("^","**") + right)` on the two operand tokens.
The crucial Python precedence fact: `**` binds tighter than the unary minus of
the left token, so `-a ** b` is `-(a ** b)`; for `+ - * /` the unary sign
binds tighter and the value is the ordinary signed application.  `/` raises
ZeroDivisionError on a zero divisor. -/
def pyEvalBin (fpow : Frac → Frac → Frac) (L : Resolved) (op : Char) (R : Resolved) :
    Except PyErr Frac :=
  match resolvedSignMag L with
  | .error e => .error e
  | .ok (sL, mL) =>
    match resolvedSignMag R with
    | .error e => .error e
    | .ok (sR, mR) =>
      let vL := if sL then mL.neg else mL
      let vR := if sR then mR.neg else mR
      if op = '^' then
        match pyPosPow fpow mL vR with
        | .ok p => .ok (if sL then p.neg else p)
        | .error e => .error e
      else if op = '/' then
        if vR.isZero then .error .zeroDivision else .ok (vL.div vR)
      else if op = '*' then .ok (vL.mul vR)
      else if op = '-' then .ok (vL.sub vR)
      else if op = '+' then .ok (vL.add vR)
      else .error .badLiteral

mutual
/-- `Expression.calculate`: resolve both operands, then apply the operator via
`eval` on the concatenated token strings. -/
def calculate (fpow : Frac → Frac → Frac) : Expr → Except PyErr Frac
  | .mk l r op _ =>
    match resolveOperand fpow l with
    | .error e => .error e
    | .ok L =>
      match resolveOperand fpow r with
      | .error e => .error e
      | .ok R => pyEvalBin fpow L op R

/-- `Expression.resolve_operand`: a string stays a token; a nested expression
is calculated and its `str()` becomes the token. -/
def resolveOperand (fpow : Frac → Frac → Frac) : Operand → Except PyErr Resolved
  | .ofStr s => .ok (.lit s)
  | .ofExpr e =>
    match calculate fpow e with
    | .ok q => .ok (.num q)
    | .error er => .error er
end

/-- Parse then evaluate: `Expression.parse(s).calculate()`. -/
def parseCalc (fpow : Frac → Frac → Frac) (s : String) : Except PyErr Frac :=
  match pyParse s with
  | .ok e => calculate fpow e
  | .error er => .error er

/-- Evaluation of a tree, read as a rational value. -/
def calcQ (fpow : Frac → Frac → Frac) (e : Expr) : Except PyErr ℚ :=
  (calculate fpow e).map Frac.val

/-- Parse-then-evaluate, read as a rational value. -/
def parseCalcQ (fpow : Frac → Frac → Frac) (s : String) : Except PyErr ℚ :=
  (parseCalc fpow s).map Frac.val

/-- A throwaway float-power stand-in used to state closed counterexamples whose
evaluation never reaches the fractional-power approximation. -/
def anyPow : Frac → Frac → Frac := fun _ _ => ⟨0, 1⟩

/-- The standard mathematical application of an operator symbol, following the
spec's words, as a rational value: exact addition, subtraction, multiplication
and division of the operand values; `^` is real exponentiation of the base to
the exponent, expressed through the model's `mathPow` (exact on integer
exponents and on fractional exponents with rational real roots, the abstract
float approximation `fpow` otherwise). -/
def stdApplyQ (fpow : Frac → Frac → Frac) (op : Char) (x y : Frac) : ℚ :=
  if op = '^' then (mathPow fpow x y).val
  else if op = '/' then x.val / y.val
  else if op = '*' then x.val * y.val
  else if op = '-' then x.val - y.val
  else x.val + y.val

/-! ## Helper lemmas for reading evaluation results as rationals -/

theorem parseCalcQ_of_ok (fpow : Frac → Frac → Frac) (s : String) (f : Frac) (q : ℚ)
    (h1 : parseCalc fpow s = .ok f) (h2 : f.val = q) : parseCalcQ fpow s = .ok q := by
  unfold parseCalcQ
  rw [h1, ← h2]
  rfl

theorem parseCalcQ_of_error (fpow : Frac → Frac → Frac) (s : String) (e : PyErr)
    (h1 : parseCalc fpow s = .error e) : parseCalcQ fpow s = .error e := by
  unfold parseCalcQ
  rw [h1]
  rfl

theorem calcQ_of_ok (fpow : Frac → Frac → Frac) (t : Expr) (f : Frac) (q : ℚ)
    (h1 : calculate fpow t = .ok f) (h2 : f.val = q) : calcQ fpow t = .ok q := by
  unfold calcQ
  rw [h1, ← h2]
  rfl

theorem calcQ_of_error (fpow : Frac → Frac → Frac) (t : Expr) (e : PyErr)
    (h1 : calculate fpow t = .error e) : calcQ fpow t = .error e := by
  unfold calcQ
  rw [h1]
  rfl

theorem Frac.val_neg (f : Frac) : f.neg.val = -f.val := by
  unfold Frac.val Frac.neg
  push_cast
  ring

/-! ## Claim C2 — sign-vs-operator disambiguation on `-2^-3` -/

/-- C2: evaluating the code at the failing input.  The spec (and the comment on
`operator_regex`) require the `-` after `^` to be read as a literal sign, with
`parse("-2^-3").evaluate() == -0.125`.  The lookbehind excludes only `/`, `(`
and `-`, so the `-` following `^` is chosen as the split operator; the split
leaves `"-2^"` whose own split produces an empty right operand, and the
`Expression` constructor raises ValueError.  `parse("-2^-3")` therefore fails
instead of returning a tree. -/
theorem claim2_code_divergence :
    pyParse "-2^-3" = .error PyErr.valueErrorOperand := by rfl

/-! ## Claim C3 — malformed input rejection -/

/-- On the unbalanced input `"(5+3"` one substitution pass of the bracket
regex finds no match, so `_mask_brackets` recurses forever on an unchanged
string: no fuel suffices. -/
theorem maskBrackets_unbalanced (f : Nat) : maskBrackets f ('(' :: '5' :: '+' :: '3' :: []) = none := by
  induction f with
  | zero => rfl
  | succ n ih =>
    rw [maskBrackets]
    simpa using ih

/-- C3 counterexample: the claim says `parse("(5+3")` fails with a parse-time
SyntaxError/ValueError; instead `_mask_brackets` recurses without bound on the
unchanged string and Python dies with RecursionError, a different error
class.  (The other two inputs of the claim do fail with ValueError, see the
amended theorem.) -/
theorem claim3_counterexample :
    pyParse "(5+3" = .error PyErr.recursionError ∧
    PyErr.recursionError ≠ PyErr.valueErrorOperand ∧
    PyErr.recursionError ≠ PyErr.valueErrorBuild := by
  refine ⟨?_, by decide, by decide⟩
  show build ('(' :: '5' :: '+' :: '3' :: []) = .error PyErr.recursionError
  unfold build buildExpr getLowestPriorityOperator
  rw [maskBrackets_unbalanced]

/-- C3 amended: `parse("5+")` fails with the constructor's ValueError (the
split at `+` leaves an empty right operand, rejected by `no_funny_stuff`);
`parse("5$3")` fails with the builder's ValueError (`"Failed to build
expression"`: no operator matches, the `None` operator raises TypeError);
`parse("(5+3")` aborts with RecursionError from the unbounded
`_mask_brackets` recursion.  None of the three returns a tree or a numeric
result. -/
theorem claim3_amended :
    pyParse "5+" = .error PyErr.valueErrorOperand ∧
    pyParse "5$3" = .error PyErr.valueErrorBuild ∧
    pyParse "(5+3" = .error PyErr.recursionError := by
  refine ⟨by rfl, by rfl, ?_⟩
  show build ('(' :: '5' :: '+' :: '3' :: []) = .error PyErr.recursionError
  unfold build buildExpr getLowestPriorityOperator
  rw [maskBrackets_unbalanced]

/-! ## Claim C5 — precedence and parentheses -/

/-- C5: multiplication binds tighter than addition (`2+3*4` gives 14, the `+`
is scanned first and becomes the root), and brackets override precedence
(`(2+3)*4` gives 20: the masked group hides its `+`, the split happens at `*`,
and the bracketed substring is rebuilt as a parenthesized subtree). -/
theorem claim5_precedence_brackets (fpow : Frac → Frac → Frac) :
    parseCalcQ fpow "2+3*4" = .ok 14 ∧ parseCalcQ fpow "(2+3)*4" = .ok 20 :=
  ⟨parseCalcQ_of_ok fpow _ ⟨14, 1⟩ 14 (by rfl) (by norm_num [Frac.val]),
   parseCalcQ_of_ok fpow _ ⟨20, 1⟩ 20 (by rfl) (by norm_num [Frac.val])⟩

/-! ## Claim C6 — associativity of equal-precedence chains -/

/-- C6 counterexample: the claim asserts the mixed chain `8/2*4` evaluates
left-to-right to 16; the builder scans `/` before `*` (they have distinct
priorities in `reversed(list(Operator))`), so the split is at `/` and the tree
is `8/(2*4)`, which evaluates to 1. -/
theorem claim6_counterexample :
    parseCalcQ anyPow "8/2*4" = .ok 1 ∧ (1 : ℚ) ≠ 16 :=
  ⟨parseCalcQ_of_ok anyPow _ ⟨8, 8⟩ 1 (by rfl) (by norm_num [Frac.val]), by norm_num⟩

/-- C6 amended: a chain of one repeated operator does split at the rightmost
occurrence and is left-associative — `8-3-2` becomes `(8-3)-2 = 3` with left
sub-tree `"8-3"` and right leaf `"2"` — but `*` and `/` are *not* at one
precedence level: `/` is scanned before `*`, so `8/2*4` splits at `/` into
`8/(2*4) = 1` (not the left-to-right 16), while `8*2/4 = (8*2)/4 = 4` happens
to agree with left-to-right evaluation. -/
theorem claim6_amended (fpow : Frac → Frac → Frac) :
    pyParse "8-3-2" =
      .ok (Expr.mk (.ofExpr (Expr.mk (.ofStr ['8']) (.ofStr ['3']) '-' false))
        (.ofStr ['2']) '-' false) ∧
    parseCalcQ fpow "8-3-2" = .ok 3 ∧
    parseCalcQ fpow "8/2*4" = .ok 1 ∧
    parseCalcQ fpow "8*2/4" = .ok 4 :=
  ⟨by rfl,
   parseCalcQ_of_ok fpow _ ⟨3, 1⟩ 3 (by rfl) (by norm_num [Frac.val]),
   parseCalcQ_of_ok fpow _ ⟨8, 8⟩ 1 (by rfl) (by norm_num [Frac.val]),
   parseCalcQ_of_ok fpow _ ⟨16, 4⟩ 4 (by rfl) (by norm_num [Frac.val])⟩

/-! ## Claim C7 — a bare literal at the parse entry point -/

/-- C7 counterexample: the claim says `parse("5")` returns the numeric leaf 5;
in the code `_get_lowest_priority_operator` returns `None`, `parse_terms` then
raises TypeError (`str.replace` with `None`), and `build` converts it to the
ValueError `"Failed to build expression"`.  Parsing a bare literal fails. -/
theorem claim7_counterexample :
    pyParse "5" = .error PyErr.valueErrorBuild := by rfl

/-- C7 amended: when no operator at any precedence level produces a split in
the string given to the parse entry point, parsing fails with ValueError
(operator `None` → TypeError → `"Failed to build expression"`).  Operand
substrings without operator matches inside a larger expression do become
string leaves, as in `5+3` whose sides stay the literals `"5"` and `"3"`. -/
theorem claim7_amended :
    pyParse "5" = .error PyErr.valueErrorBuild ∧
    pyParse "5+3" = .ok (Expr.mk (.ofStr ['5']) (.ofStr ['3']) '+' false) :=
  ⟨rfl, rfl⟩

/-! ## Claim C9 — division by zero -/

/-- C9: `parse("5/0").calculate()` fails with ZeroDivisionError — the modeled
evaluator returns the `zeroDivision` error, not infinity and not a default
value; the model is a pure function of the input, so the same input always
reproduces the same error. -/
theorem claim9_division_by_zero (fpow : Frac → Frac → Frac) :
    parseCalcQ fpow "5/0" = .error PyErr.zeroDivision :=
  parseCalcQ_of_error fpow _ _ (by rfl)

/-! ## Claim C10 — construction-time validation does not guarantee evaluability -/

/-- C10: `"inf"` is accepted by `float()` and hence by `no_funny_stuff`, so
`Expression("inf", "1", "+")` constructs successfully; but at calculate time
`eval("inf+1")` raises NameError (`inf` is an unbound identifier in `eval`'s
environment), an error class distinct from the documented ValueError /
ZeroDivisionError failures. -/
theorem claim10_inf_operand (fpow : Frac → Frac → Frac) :
    pyFloatParseable "inf".data = true ∧
    mkExpression (.ofStr "inf".data) (.ofStr "1".data) '+' false =
      .ok (Expr.mk (.ofStr "inf".data) (.ofStr "1".data) '+' false) ∧
    calculate fpow (Expr.mk (.ofStr "inf".data) (.ofStr "1".data) '+' false) =
      .error PyErr.nameError ∧
    PyErr.nameError ≠ PyErr.valueErrorOperand ∧
    PyErr.nameError ≠ PyErr.valueErrorBuild ∧
    PyErr.nameError ≠ PyErr.zeroDivision :=
  ⟨by rfl, by rfl, by rfl, by decide, by decide, by decide⟩

/-! ## Claim C8 — negative base with fractional exponent -/

/-- C8 counterexample: the claim asserts evaluation of an exponentiation node
with negative base and fractional exponent fails with an error; the node
`Expression("-2.25", "0.5", "^")` passes construction and `calculate` returns
`-(2.25 ** 0.5) = -1.5` — the eval string `"-2.25**0.5"` applies the unary
minus *after* the power — so evaluation succeeds with a real value. -/
theorem claim8_counterexample :
    mkExpression (.ofStr "-2.25".data) (.ofStr "0.5".data) '^' false =
      .ok (Expr.mk (.ofStr "-2.25".data) (.ofStr "0.5".data) '^' false) ∧
    calcQ anyPow (Expr.mk (.ofStr "-2.25".data) (.ofStr "0.5".data) '^' false) =
      .ok (-(3 / 2 : ℚ)) :=
  ⟨by rfl,
   calcQ_of_ok anyPow _ ⟨-3, 2⟩ (-(3 / 2 : ℚ)) (by rfl) (by norm_num [Frac.val])⟩

/-- C8 amended: evaluating an exponentiation node whose left operand carries a
leading minus and whose exponent is fractional does not fail and never yields
a complex number: since `**` binds tighter than the unary minus of the operand
token, the result is `-(|base| ** exp)`, a negative real.  For
`("-2", "0.5", "^")` the magnitude `2 ** 0.5` is irrational and stands as the
abstract float approximation `fpow ⟨2,1⟩ ⟨5,10⟩` (positive, as Python's is);
for `("-2.25", "0.5", "^")` the model computes the exact value `-1.5`. -/
theorem claim8_amended (fpow : Frac → Frac → Frac)
    (h : 0 < (fpow ⟨2, 1⟩ ⟨5, 10⟩).val) :
    calculate fpow (Expr.mk (.ofStr "-2".data) (.ofStr "0.5".data) '^' false) =
      .ok (fpow ⟨2, 1⟩ ⟨5, 10⟩).neg ∧
    ((fpow ⟨2, 1⟩ ⟨5, 10⟩).neg).val < 0 ∧
    calcQ fpow (Expr.mk (.ofStr "-2.25".data) (.ofStr "0.5".data) '^' false) =
      .ok (-(3 / 2 : ℚ)) :=
  ⟨by rfl,
   by rw [Frac.val_neg]; exact neg_neg_of_pos h,
   calcQ_of_ok fpow _ ⟨-3, 2⟩ (-(3 / 2 : ℚ)) (by rfl) (by norm_num [Frac.val])⟩

/-- C8 amended, witness: instantiating the abstract float power at a concrete
positive function. -/
theorem claim8_amended_witness :
    (0 : ℚ) < Frac.val ((fun _ _ => (⟨1, 1⟩ : Frac)) (⟨2, 1⟩ : Frac) (⟨5, 10⟩ : Frac)) ∧
    calculate (fun _ _ => (⟨1, 1⟩ : Frac))
        (Expr.mk (.ofStr "-2".data) (.ofStr "0.5".data) '^' false) =
      .ok ((fun _ _ => (⟨1, 1⟩ : Frac)) (⟨2, 1⟩ : Frac) (⟨5, 10⟩ : Frac)).neg :=
  ⟨by norm_num [Frac.val],
   (claim8_amended (fun _ _ => (⟨1, 1⟩ : Frac)) (by norm_num [Frac.val])).1⟩

/-! ## Masking and splitting: structural lemmas

The bracket mask replaces characters by `B` without moving anything, so a
match position found on the masked string addresses the same character of the
original string whenever the matched character is not `B` itself.  These
lemmas culminate in `parseTerms_ok_split`: a successful split decomposes the
input as `left ++ op :: right`. -/

/-- Pointwise relation between a string and its masked form: each character is
kept or turned into `B`. -/
def MaskedAt (a b : Char) : Prop := b = a ∨ b = 'B'

theorem maskedRel_refl (l : List Char) : List.Forall₂ MaskedAt l l :=
  List.forall₂_same.2 (fun _ _ => Or.inl rfl)

theorem maskedRel_trans {l m n : List Char} (h1 : List.Forall₂ MaskedAt l m)
    (h2 : List.Forall₂ MaskedAt m n) : List.Forall₂ MaskedAt l n := by
  induction h1 generalizing n with
  | nil => cases h2; exact .nil
  | cons hab _ ih =>
    cases h2 with
    | cons hbc h2t =>
      refine .cons ?_ (ih h2t)
      rcases hbc with rfl | rfl
      · exact hab
      · exact Or.inr rfl

theorem maskedRel_replicate : ∀ (xs : List Char) (n : Nat), xs.length = n →
    List.Forall₂ MaskedAt xs (List.replicate n 'B') := by
  intro xs
  induction xs with
  | nil => intro n h; cases h; exact .nil
  | cons c t ih =>
    intro n h
    cases n with
    | zero => cases h
    | succ k => exact .cons (Or.inr rfl) (ih k (by simpa using h))

theorem findClose_split : ∀ (x : List Char) (j k : Nat) (r2 : List Char),
    findClose x j = some (k, r2) →
    ∃ seg : List Char, x = seg ++ ')' :: r2 ∧ j + seg.length = k := by
  intro x
  induction x with
  | nil => intro j k r2 h; simp [findClose] at h
  | cons c rest ih =>
    intro j k r2 h
    rw [findClose] at h
    by_cases hc : c = ')'
    · rw [if_pos hc] at h
      by_cases hj : j = 0
      · rw [if_pos hj] at h; cases h
      · rw [if_neg hj] at h
        injection h with h2
        injection h2 with h3 h4
        exact ⟨[], by simp [hc, h4], by simpa using h3⟩
    · rw [if_neg hc] at h
      by_cases ho : c = '('
      · rw [if_pos ho] at h; cases h
      · rw [if_neg ho] at h
        obtain ⟨seg, hseg, hlen⟩ := ih (j + 1) k r2 h
        exact ⟨c :: seg, by simp [hseg], by simp [← hlen]; omega⟩

theorem maskOnceF_rel : ∀ (f : Nat) (l : List Char), l.length < f →
    List.Forall₂ MaskedAt l (maskOnceF f l) := by
  intro f
  induction f with
  | zero => intro l h; omega
  | succ n ih =>
    intro l hlen
    cases l with
    | nil => exact .nil
    | cons c rest =>
      have hrlen : rest.length < n := by
        simp only [List.length_cons] at hlen
        omega
      rw [maskOnceF]
      by_cases hc : c = '('
      · rw [if_pos hc]
        cases hfc : findClose rest 0 with
        | none =>
          show List.Forall₂ MaskedAt (c :: rest) (c :: maskOnceF n rest)
          exact .cons (Or.inl rfl) (ih rest hrlen)
        | some pr =>
          obtain ⟨k, rest2⟩ := pr
          show List.Forall₂ MaskedAt (c :: rest)
            (List.replicate (k + 2) 'B' ++ maskOnceF n rest2)
          obtain ⟨seg, hseg, hklen⟩ := findClose_split rest 0 k rest2 hfc
          subst hseg
          have hre : c :: (seg ++ ')' :: rest2) = (c :: (seg ++ [')'])) ++ rest2 := by
            simp
          rw [hre]
          have h1 : List.Forall₂ MaskedAt (c :: (seg ++ [')'])) (List.replicate (k + 2) 'B') := by
            apply maskedRel_replicate
            simp only [List.length_cons, List.length_append, List.length_nil]
            omega
          have hr2 : rest2.length < n := by
            simp only [List.length_append, List.length_cons] at hrlen
            omega
          exact List.rel_append h1 (ih rest2 hr2)
      · rw [if_neg hc]
        exact .cons (Or.inl rfl) (ih rest hrlen)

theorem maskOnce_rel (l : List Char) : List.Forall₂ MaskedAt l (maskOnce l) :=
  maskOnceF_rel (l.length + 1) l (by omega)

theorem maskBrackets_rel : ∀ (f : Nat) (l m : List Char), maskBrackets f l = some m →
    List.Forall₂ MaskedAt l m := by
  intro f
  induction f with
  | zero => intro l m h; cases h
  | succ n ih =>
    intro l m h
    rw [maskBrackets] at h
    by_cases hp : '(' ∈ maskOnce l
    · rw [if_pos hp] at h
      exact maskedRel_trans (maskOnce_rel l) (ih _ _ h)
    · rw [if_neg hp] at h
      injection h with h2
      rw [← h2]
      exact maskOnce_rel l

/-- A recorded match position addresses the operator character, at an offset
of at least the starting index. -/
theorem findOps_mem : ∀ (m : List Char) (op : Char) (prev : Option Char) (j i : Nat),
    i ∈ findOps op prev j m → j ≤ i ∧ m[i - j]? = some op := by
  intro m
  induction m with
  | nil => intro op prev j i h; simp [findOps] at h
  | cons c rest ih =>
    intro op prev j i h
    rw [findOps] at h
    rcases List.mem_append.1 h with h1 | h2
    · by_cases hcond : (c == op && prevOk prev) = true
      · rw [if_pos hcond] at h1
        simp only [List.mem_singleton] at h1
        subst h1
        have hco : c = op := by
          have := hcond
          simp only [Bool.and_eq_true, beq_iff_eq] at this
          exact this.1
        refine ⟨Nat.le_refl _, ?_⟩
        simp [hco]
      · rw [if_neg hcond] at h1; simp at h1
    · obtain ⟨hj, hg⟩ := ih op (some c) (j + 1) i h2
      refine ⟨by omega, ?_⟩
      have hij : i - j = (i - (j + 1)) + 1 := by omega
      rw [hij]
      simpa using hg

/-- With no preceding character (position `j` is the string start) the head
cannot match, so every match is strictly beyond `j`. -/
theorem findOps_none_pos (m : List Char) (op : Char) (j i : Nat)
    (h : i ∈ findOps op none j m) : j + 1 ≤ i := by
  cases m with
  | nil => simp [findOps] at h
  | cons c rest =>
    rw [findOps] at h
    have hfalse : (c == op && prevOk none) = false := by simp [prevOk]
    rw [hfalse] at h
    simp at h
    exact (findOps_mem rest op (some c) (j + 1) i h).1

theorem getLast?_mem {α : Type} (l : List α) (a : α) (h : l.getLast? = some a) : a ∈ l := by
  have hd := List.dropLast_append_getLast? a h
  rw [← hd]
  exact List.mem_append_right _ (by simp)

theorem getLowest_mem (l : List Char) (op : Char)
    (h : getLowestPriorityOperator l = .ok (some op)) : op ∈ operators := by
  unfold getLowestPriorityOperator at h
  cases hm : maskBrackets bracketFuel l with
  | none => rw [hm] at h; cases h
  | some m =>
    rw [hm] at h
    injection h with h2
    exact List.mem_of_find?_eq_some h2

theorem mem_operators_ne_B (op : Char) (h : op ∈ operators) : op ≠ 'B' := by
  simp only [operators, List.mem_cons, List.mem_singleton, List.not_mem_nil, or_false] at h
  rcases h with rfl | rfl | rfl | rfl | rfl <;> decide

/-- A successful split decomposes the input around the operator character and
both parts are strictly shorter. -/
theorem parseTerms_ok_split (l : List Char) (op : Char) (hB : op ≠ 'B')
    (left right : List Char) (h : parseTerms l op = .ok (left, right)) :
    l = left ++ op :: right ∧ left.length < l.length ∧ right.length < l.length := by
  unfold parseTerms at h
  cases hm : maskBrackets bracketFuel l with
  | none => rw [hm] at h; cases h
  | some m =>
    rw [hm] at h
    dsimp only [] at h
    cases hlast : (findOps op none 0 m).getLast? with
    | none => rw [hlast] at h; cases h
    | some i =>
      rw [hlast] at h
      dsimp only [] at h
      injection h with h2
      injection h2 with hleft hright
      have hmem : i ∈ findOps op none 0 m := getLast?_mem _ _ hlast
      have hget : m[i]? = some op := by simpa using (findOps_mem m op none 0 i hmem).2
      have hpos : 0 < i := findOps_none_pos m op 0 i hmem
      have hrel := maskBrackets_rel bracketFuel l m hm
      have hlen : l.length = m.length := hrel.length_eq
      have hilt : i < m.length := (List.getElem?_eq_some.1 hget).1
      have hiltl : i < l.length := by omega
      have hgl : l[i] = op := by
        obtain ⟨hlm, hid⟩ := List.forall₂_iff_get.1 hrel
        have := hid i hiltl hilt
        rcases this with hkeep | hbmask
        · have : m[i] = op := (List.getElem?_eq_some.1 hget).2
          simp only [List.get_eq_getElem] at hkeep
          rw [← hkeep, this]
        · exfalso
          have : m[i] = op := (List.getElem?_eq_some.1 hget).2
          simp only [List.get_eq_getElem] at hbmask
          rw [this] at hbmask
          exact hB hbmask
      refine ⟨?_, ?_, ?_⟩
      · rw [← hleft, ← hright]
        have hd : l.drop i = l[i] :: l.drop (i + 1) := List.drop_eq_getElem_cons hiltl
        rw [← hgl]
        calc l = l.take i ++ l.drop i := (List.take_append_drop i l).symm
          _ = l.take i ++ l[i] :: l.drop (i + 1) := by rw [hd]
      · rw [← hleft]; simp; omega
      · rw [← hright]; simp; omega

/-- A string that both starts with `(` and ends with `)` is the
parenthesization of its stripped middle. -/
theorem paren_strip (l : List Char) (h1 : l.head? = some '(') (h2 : l.getLast? = some ')') :
    l = '(' :: ((l.drop 1).dropLast ++ [')']) := by
  cases l with
  | nil => cases h1
  | cons c t =>
    have hc : c = '(' := by simpa using h1
    subst hc
    cases t with
    | nil => simp at h2
    | cons d u =>
      have hd : (d :: u).getLast? = some ')' := by
        rw [← h2]; rfl
      have hrest := List.dropLast_append_getLast? ')' hd
      simp only [List.drop_one]
      show '(' :: d :: u = '(' :: ((d :: u).dropLast ++ [')'])
      rw [hrest]

theorem mkExpression_ok (lOp rOp : Operand) (op : Char) (br : Bool) (e : Expr)
    (h : mkExpression lOp rOp op br = .ok e) : e = .mk lOp rOp op br := by
  unfold mkExpression at h
  split at h
  · injection h with h2; exact h2.symm
  · cases h

/-- When one side of a successful split builds to an operand, that operand
renders back to exactly the original substring. -/
theorem buildSide_repr (n : Nat) (t : List Char) (oOp : Operand)
    (ih : ∀ (l : List Char) (br : Bool) (e : Expr), buildExpr n l br = .ok e →
      strRepr e = (if br then '(' :: (l ++ [')']) else l))
    (h : (if 0 < countOperators t then
            if t.head? == some '(' && t.getLast? == some ')' then
              (buildExpr n ((t.drop 1).dropLast) true).map .ofExpr
            else (buildExpr n t false).map .ofExpr
          else .ok (.ofStr t)) = .ok oOp) :
    operandStr oOp = t := by
  by_cases hcnt : 0 < countOperators t
  · rw [if_pos hcnt] at h
    by_cases hshape : (t.head? == some '(' && t.getLast? == some ')') = true
    · rw [if_pos hshape] at h
      cases hb : buildExpr n ((t.drop 1).dropLast) true with
      | error e1 => rw [hb] at h; cases h
      | ok e2 =>
        rw [hb] at h
        injection h with h2
        rw [← h2]
        show strRepr e2 = t
        have hh : t.head? = some '(' := by
          have := Bool.and_elim_left hshape
          simpa using this
        have hl : t.getLast? = some ')' := by
          have := Bool.and_elim_right hshape
          simpa using this
        rw [ih _ _ _ hb, if_pos rfl]
        exact (paren_strip t hh hl).symm
    · rw [if_neg hshape] at h
      cases hb : buildExpr n t false with
      | error e1 => rw [hb] at h; cases h
      | ok e2 =>
        rw [hb] at h
        injection h with h2
        rw [← h2]
        show strRepr e2 = t
        have := ih _ _ _ hb
        simpa using this
  · rw [if_neg hcnt] at h
    injection h with h2
    rw [← h2]
    rfl

/-- The central rendering identity: a successfully built expression's
`_str_representation` is exactly the substring it was built from (wrapped in
parentheses when `is_within_brackets` was set). -/
theorem buildExpr_repr : ∀ (fuel : Nat) (l : List Char) (br : Bool) (e : Expr),
    buildExpr fuel l br = .ok e →
    strRepr e = (if br then '(' :: (l ++ [')']) else l) := by
  intro fuel
  induction fuel with
  | zero => intro l br e h; cases h
  | succ n ih =>
    intro l br e h
    rw [buildExpr] at h
    cases hop : getLowestPriorityOperator l with
    | error e1 => rw [hop] at h; cases h
    | ok oop =>
      rw [hop] at h
      cases oop with
      | none => cases h
      | some op =>
        dsimp only [] at h
        cases hpt : parseTerms l op with
        | error e1 => rw [hpt] at h; cases h
        | ok pr =>
          obtain ⟨left, right⟩ := pr
          rw [hpt] at h
          dsimp only [] at h
          have hB : op ≠ 'B' := mem_operators_ne_B op (getLowest_mem l op hop)
          obtain ⟨hsplit, _, _⟩ := parseTerms_ok_split l op hB left right hpt
          cases hLv : (if 0 < countOperators left then
                         if left.head? == some '(' && left.getLast? == some ')' then
                           (buildExpr n ((left.drop 1).dropLast) true).map Operand.ofExpr
                         else (buildExpr n left false).map Operand.ofExpr
                       else .ok (.ofStr left)) with
          | error e1 => rw [hLv] at h; cases h
          | ok lOp =>
            rw [hLv] at h
            dsimp only [] at h
            cases hRv : (if 0 < countOperators right then
                           if right.head? == some '(' && right.getLast? == some ')' then
                             (buildExpr n ((right.drop 1).dropLast) true).map Operand.ofExpr
                           else (buildExpr n right false).map Operand.ofExpr
                         else .ok (.ofStr right)) with
            | error e1 => rw [hRv] at h; cases h
            | ok rOp =>
              rw [hRv] at h
              dsimp only [] at h
              have he := mkExpression_ok lOp rOp op br e h
              subst he
              show (if br then '(' :: ((operandStr lOp ++ op :: operandStr rOp) ++ [')'])
                    else operandStr lOp ++ op :: operandStr rOp) =
                (if br then '(' :: (l ++ [')']) else l)
              rw [buildSide_repr n left lOp ih hLv, buildSide_repr n right rOp ih hRv, ← hsplit]

/-- A successful `build` comes from a successful `_build_expression`. -/
theorem build_ok (l : List Char) (e : Expr) (h : build l = .ok e) :
    buildExpr (l.length + 1) l false = .ok e := by
  unfold build at h
  cases hb : buildExpr (l.length + 1) l false with
  | error e1 =>
    rw [hb] at h
    cases e1 <;> cases h
  | ok e2 => rw [hb] at h; exact h

/-! ## Claim C4 — render round-trip -/

/-- C4: rendering the parsed tree reproduces the input string exactly
(`strRepr` wraps a subtree in parentheses precisely when `is_within_brackets`
is set, and the splitter's decomposition is reassembled unchanged), so
re-parsing the rendering yields the very same tree and in particular the same
evaluated value for every float-power interpretation. -/
theorem claim4_render_roundtrip (s : String) (e : Expr) (h : pyParse s = .ok e) :
    pyParse ⟨strRepr e⟩ = .ok e ∧
    (∀ fpow, parseCalcQ fpow ⟨strRepr e⟩ = parseCalcQ fpow s) := by
  have hb : buildExpr (s.data.length + 1) s.data false = .ok e := build_ok s.data e h
  have hr : strRepr e = s.data := by
    have := buildExpr_repr (s.data.length + 1) s.data false e hb
    simpa using this
  have hs : (⟨strRepr e⟩ : String) = s := by
    rw [hr]
  constructor
  · rw [hs]; exact h
  · intro fpow; rw [hs]

/-- C4 witness: the identity at the concrete input `1+2`. -/
theorem claim4_witness :
    pyParse "1+2" = .ok (Expr.mk (.ofStr ['1']) (.ofStr ['2']) '+' false) ∧
    pyParse ⟨strRepr (Expr.mk (.ofStr ['1']) (.ofStr ['2']) '+' false)⟩ =
      .ok (Expr.mk (.ofStr ['1']) (.ofStr ['2']) '+' false) :=
  ⟨by rfl,
   (claim4_render_roundtrip "1+2" (Expr.mk (.ofStr ['1']) (.ofStr ['2']) '+' false)
     (by rfl)).1⟩

/-! ## Claim C1 — single operations on literal operands

The claim quantifies over numeric literals.  `UnsignedCore` is the shape of an
unsigned decimal literal (digits, optionally a dot and more digits); a signed
literal prefixes an optional `-`.  The development characterizes every regex
match position in the concatenation `a ++ op :: b` and follows the builder and
the evaluator through it. -/

/-- The unsigned decimal literal shape `D+ [. D+]`. -/
def UnsignedCore (l : List Char) : Prop :=
  ∃ ds fs : List Char,
    ds ≠ [] ∧ (∀ c ∈ ds, isDig c = true) ∧
    ((l = ds ∧ fs = []) ∨ (l = ds ++ '.' :: fs ∧ fs ≠ [] ∧ (∀ c ∈ fs, isDig c = true)))

/-- A literal string with an optional leading minus. -/
def sgnChars : Bool → List Char → List Char
  | true, c => '-' :: c
  | false, c => c

/-- The value denoted by an unsigned literal string. -/
def litFrac (c : List Char) : Frac :=
  match parseNumber c with
  | some (q, _) => q
  | none => ⟨0, 1⟩

/-- The signed value of a literal with optional minus. -/
def sgnLitFrac (s : Bool) (c : List Char) : Frac :=
  if s then (litFrac c).neg else litFrac c

theorem isDig_facts (x : Char) (h : isDig x = true) :
    x ≠ '+' ∧ x ≠ '-' ∧ x ≠ '/' ∧ x ≠ '*' ∧ x ≠ '^' ∧ x ≠ '(' ∧ x ≠ ')' ∧
    x ≠ '.' ∧ x ≠ '_' ∧ isSpaceChar x = false ∧ x.isAlpha = false ∧
    prevOk (some x) = true := by
  have hm : x ∈ digitChars := by
    simpa [isDig, List.contains_iff_exists_mem_beq, beq_iff_eq] using h
  simp only [digitChars, List.mem_cons, List.not_mem_nil, or_false] at hm
  rcases hm with rfl | rfl | rfl | rfl | rfl | rfl | rfl | rfl | rfl | rfl <;>
    exact ⟨by decide, by decide, by decide, by decide, by decide, by decide,
      by decide, by decide, by decide, by decide, by decide, by decide⟩

/-- Characters of a literal-with-dot differ from any operator character. -/
theorem digdot_ne_op (x op2 : Char) (hx : isDig x = true ∨ x = '.')
    (hop2 : op2 ∈ operators) : x ≠ op2 := by
  simp only [operators, List.mem_cons, List.not_mem_nil, or_false] at hop2
  rcases hx with hd | rfl
  · obtain ⟨h1, h2, h3, h4, h5, _⟩ := isDig_facts x hd
    rcases hop2 with rfl | rfl | rfl | rfl | rfl <;> assumption
  · rcases hop2 with rfl | rfl | rfl | rfl | rfl <;> decide

/-- Every character of an unsigned core literal is a digit or the dot. -/
theorem core_chars (c : List Char) (h : UnsignedCore c) :
    ∀ x ∈ c, isDig x = true ∨ x = '.' := by
  obtain ⟨ds, fs, _, hds, hshape⟩ := h
  rcases hshape with ⟨rfl, _⟩ | ⟨rfl, _, hfs⟩
  · exact fun x hx => Or.inl (hds x hx)
  · intro x hx
    rcases List.mem_append.1 hx with hx1 | hx2
    · exact Or.inl (hds x hx1)
    · rcases List.mem_cons.1 hx2 with rfl | hx3
      · exact Or.inr rfl
      · exact Or.inl (hfs x hx3)

theorem core_ne_nil (c : List Char) (h : UnsignedCore c) : c ≠ [] := by
  obtain ⟨ds, fs, hne, _, hshape⟩ := h
  rcases hshape with ⟨rfl, _⟩ | ⟨rfl, _, _⟩
  · exact hne
  · cases ds with
    | nil => exact absurd rfl hne
    | cons d t => simp

theorem core_head_dig (c : List Char) (h : UnsignedCore c) :
    ∃ d t, c = d :: t ∧ isDig d = true := by
  obtain ⟨ds, fs, hne, hds, hshape⟩ := h
  cases ds with
  | nil => exact absurd rfl hne
  | cons d t =>
    rcases hshape with ⟨rfl, _⟩ | ⟨rfl, _, _⟩
    · exact ⟨d, t, rfl, hds d (by simp)⟩
    · exact ⟨d, t ++ '.' :: fs, by simp, hds d (by simp)⟩

theorem core_last_dig (c : List Char) (h : UnsignedCore c) :
    ∃ d, c.getLast? = some d ∧ isDig d = true := by
  obtain ⟨ds, fs, hne, hds, hshape⟩ := h
  rcases hshape with ⟨heq, _⟩ | ⟨heq, hfne, hfs⟩
  · refine ⟨ds.getLast hne, ?_, hds _ (List.getLast_mem hne)⟩
    rw [heq]
    exact List.getLast?_eq_getLast_of_ne_nil hne
  · have hfne2 : ('.' :: fs) ≠ [] := by simp
    have happ : (ds ++ '.' :: fs) ≠ [] := by simp
    have h1 : (ds ++ '.' :: fs).getLast happ = ('.' :: fs).getLast hfne2 :=
      List.getLast_append_of_ne_nil hfne2
    have h2 : ('.' :: fs).getLast hfne2 = fs.getLast hfne := by
      rw [List.getLast_cons hfne]
    refine ⟨fs.getLast hfne, ?_, hfs _ (List.getLast_mem hfne)⟩
    rw [heq, List.getLast?_eq_getLast_of_ne_nil happ, h1, h2]

/-- A scan over characters that never equal the operator yields no match. -/
theorem findOps_inert (u : List Char) (op2 : Char) (h : ∀ x ∈ u, x ≠ op2) :
    ∀ (prev : Option Char) (j : Nat), findOps op2 prev j u = [] := by
  induction u with
  | nil => intro prev j; rfl
  | cons c t ih =>
    intro prev j
    rw [findOps]
    have hc : (c == op2) = false := by
      have := h c (by simp)
      simpa using this
    rw [hc]
    simp only [Bool.false_and, if_false, List.nil_append]
    exact ih (fun x hx => h x (by simp [hx])) (some c) (j + 1)

/-- The last character of `x`, or `prev` when `x` is empty: what the scan of
`x ++ y` has seen when it reaches `y`. -/
def lastOpt (x : List Char) (prev : Option Char) : Option Char :=
  match x.getLast? with
  | some c => some c
  | none => prev

theorem findOps_append : ∀ (x y : List Char) (op2 : Char) (prev : Option Char) (j : Nat),
    findOps op2 prev j (x ++ y) =
      findOps op2 prev j x ++ findOps op2 (lastOpt x prev) (j + x.length) y := by
  intro x
  induction x with
  | nil =>
    intro y op2 prev j
    simp [findOps, lastOpt]
  | cons c t ih =>
    intro y op2 prev j
    show findOps op2 prev j (c :: (t ++ y)) = _
    rw [findOps, findOps, ih y op2 (some c) (j + 1)]
    have hlast : lastOpt (c :: t) prev = lastOpt t (some c) := by
      cases t with
      | nil => simp [lastOpt]
      | cons d u =>
        unfold lastOpt
        rw [List.getLast?_cons_cons]
        cases h2 : (d :: u).getLast? with
        | some z => rfl
        | none => simp at h2
    rw [hlast]
    simp only [List.length_cons, List.append_assoc]
    have : j + 1 + t.length = j + (t.length + 1) := by omega
    rw [this]

/-- No match inside a signed literal scanned from the string start: the
leading minus is excluded by the `(?<!^)` anchor and the rest are digits or
the dot. -/
theorem findOps_sgnLit (op2 : Char) (hop2 : op2 ∈ operators) (s : Bool) (c : List Char)
    (hc : ∀ x ∈ c, isDig x = true ∨ x = '.') :
    ∀ j, findOps op2 none j (sgnChars s c) = [] := by
  intro j
  have hinner : ∀ prev j2, findOps op2 prev j2 c = [] :=
    findOps_inert c op2 (fun x hx => digdot_ne_op x op2 (hc x hx) hop2)
  cases s with
  | false => exact hinner none j
  | true =>
    show findOps op2 none j ('-' :: c) = []
    rw [findOps]
    simp only [prevOk, Bool.and_false, if_false, List.nil_append]
    exact hinner (some '-') (j + 1)

/-- A paren-free string is untouched by one masking pass. -/
theorem maskOnceF_noparen : ∀ (f : Nat) (l : List Char), l.length < f → '(' ∉ l →
    maskOnceF f l = l := by
  intro f
  induction f with
  | zero => intro l h; omega
  | succ n ih =>
    intro l hlen hp
    cases l with
    | nil => rfl
    | cons c rest =>
      rw [maskOnceF]
      have hc : ¬(c = '(') := by
        intro hcc
        exact hp (by simp [hcc])
      rw [if_neg hc]
      have : maskOnceF n rest = rest := by
        apply ih rest (by simp at hlen; omega)
        intro hr
        exact hp (by simp [hr])
      rw [this]

/-- A paren-free string is fully masked in one step. -/
theorem maskBrackets_noparen (f : Nat) (l : List Char) (hf : 1 ≤ f) (hp : '(' ∉ l) :
    maskBrackets f l = some l := by
  cases f with
  | zero => omega
  | succ n =>
    rw [maskBrackets]
    have h1 : maskOnce l = l := maskOnceF_noparen (l.length + 1) l (by omega) hp
    simp only [maskOnce] at h1 ⊢
    rw [h1, if_neg hp]

theorem prevOk_of_dig (d : Char) (hd : isDig d = true) : prevOk (some d) = true := by
  have hm : d ∈ digitChars := by
    simpa [isDig, List.contains_iff_exists_mem_beq, beq_iff_eq] using hd
  simp only [digitChars, List.mem_cons, List.not_mem_nil, or_false] at hm
  rcases hm with rfl | rfl | rfl | rfl | rfl | rfl | rfl | rfl | rfl | rfl <;> decide

theorem lastOpt_sgnLit (s : Bool) (c : List Char) (h : UnsignedCore c) :
    ∃ d, lastOpt (sgnChars s c) none = some d ∧ isDig d = true := by
  obtain ⟨d, hdl, hdd⟩ := core_last_dig c h
  refine ⟨d, ?_, hdd⟩
  obtain ⟨hd0, t0, hct, _⟩ := core_head_dig c h
  cases s with
  | false =>
    show lastOpt c none = some d
    unfold lastOpt
    rw [hdl]
  | true =>
    show lastOpt ('-' :: c) none = some d
    unfold lastOpt
    rw [hct] at hdl ⊢
    rw [List.getLast?_cons_cons, hdl]

/-- Every regex match position of any operator in the one-operation literal
string `a ++ op :: b`: the operator's own position (when the scanned symbol is
the operator), plus — only when `b` is negatively signed and the scanned
symbol is `-` with the operator not in the lookbehind's exclusion set — the
position of `b`'s sign. -/
theorem findOps_split_lit (sa sb : Bool) (ca cb : List Char) (op op2 : Char)
    (ha : UnsignedCore ca) (hb : UnsignedCore cb) (hop2 : op2 ∈ operators) :
    findOps op2 none 0 (sgnChars sa ca ++ op :: sgnChars sb cb) =
      (if op2 = op then [(sgnChars sa ca).length] else []) ++
      (if sb = true ∧ op2 = '-' ∧ prevOk (some op) = true
        then [(sgnChars sa ca).length + 1] else []) := by
  rw [findOps_append]
  rw [findOps_sgnLit op2 hop2 sa ca (core_chars ca ha) 0]
  obtain ⟨d, hAlast, hddig⟩ := lastOpt_sgnLit sa ca ha
  rw [hAlast]
  rw [findOps]
  rw [prevOk_of_dig d hddig, Bool.and_true]
  have hinner : ∀ prev j2, findOps op2 prev j2 cb = [] :=
    findOps_inert cb op2 (fun x hx => digdot_ne_op x op2 (core_chars cb hb x hx) hop2)
  have htail : findOps op2 (some op) (0 + (sgnChars sa ca).length + 1) (sgnChars sb cb) =
      (if sb = true ∧ op2 = '-' ∧ prevOk (some op) = true
        then [(sgnChars sa ca).length + 1] else []) := by
    cases sb with
    | false =>
      show findOps op2 (some op) (0 + (sgnChars sa ca).length + 1) cb = _
      rw [hinner]
      simp
    | true =>
      show findOps op2 (some op) (0 + (sgnChars sa ca).length + 1) ('-' :: cb) = _
      rw [findOps, hinner]
      by_cases h2 : op2 = '-'
      · subst h2
        by_cases h3 : prevOk (some op) = true
        · rw [h3]
          simp
        · have h3f : prevOk (some op) = false := by
            cases hpf : prevOk (some op)
            · rfl
            · exact absurd hpf h3
          rw [h3f]
          simp [h3f]
      · have hbe : (('-' : Char) == op2) = false := by
          cases hbe2 : (('-' : Char) == op2)
          · rfl
          · exact absurd (eq_of_beq hbe2).symm h2
        rw [hbe]
        simp [h2]
  rw [htail]
  by_cases h1 : op2 = op
  · subst h1
    simp
  · have hbe : ((op == op2)) = false := by
      cases hbe2 : (op == op2)
      · rfl
      · exact absurd (eq_of_beq hbe2).symm h1
    rw [hbe]
    simp [h1]

/-- A signed literal alone contains no operator match at all, so
`count_operators` is zero on it and the builder keeps it as a leaf. -/
theorem countOperators_sgnLit (s : Bool) (c : List Char) (h : UnsignedCore c) :
    countOperators (sgnChars s c) = 0 := by
  unfold countOperators
  have hc := core_chars c h
  have h1 := findOps_sgnLit '+' (by decide) s c hc 0
  have h2 := findOps_sgnLit '-' (by decide) s c hc 0
  have h3 := findOps_sgnLit '/' (by decide) s c hc 0
  have h4 := findOps_sgnLit '*' (by decide) s c hc 0
  have h5 := findOps_sgnLit '^' (by decide) s c hc 0
  simp only [operators, List.map_cons, List.map_nil, h1, h2, h3, h4, h5]
  rfl

/-- The characters of the one-operation literal string. -/
theorem litstr_chars (sa sb : Bool) (ca cb : List Char) (op : Char)
    (ha : UnsignedCore ca) (hb : UnsignedCore cb) :
    ∀ x ∈ sgnChars sa ca ++ op :: sgnChars sb cb,
      x = op ∨ x = '-' ∨ isDig x = true ∨ x = '.' := by
  intro x hx
  have hside : ∀ (s : Bool) (c : List Char), UnsignedCore c → x ∈ sgnChars s c →
      x = '-' ∨ isDig x = true ∨ x = '.' := by
    intro s c hcore hmem
    cases s with
    | false => exact Or.inr (core_chars c hcore x hmem)
    | true =>
      rcases List.mem_cons.1 hmem with rfl | hmem2
      · exact Or.inl rfl
      · exact Or.inr (core_chars c hcore x hmem2)
  rcases List.mem_append.1 hx with hx1 | hx2
  · exact Or.inr (hside sa ca ha hx1)
  · rcases List.mem_cons.1 hx2 with rfl | hx3
    · exact Or.inl rfl
    · exact Or.inr (hside sb cb hb hx3)

/-- The one-operation literal string contains no parenthesis. -/
theorem litstr_noparen (sa sb : Bool) (ca cb : List Char) (op : Char)
    (ha : UnsignedCore ca) (hb : UnsignedCore cb) (hop : op ∈ operators) :
    '(' ∉ sgnChars sa ca ++ op :: sgnChars sb cb := by
  intro hmem
  rcases litstr_chars sa sb ca cb op ha hb '(' hmem with h1 | h1 | h1 | h1
  · subst h1
    simp only [operators, List.mem_cons, List.not_mem_nil, or_false] at hop
    rcases hop with h | h | h | h | h <;> cases h
  · cases h1
  · rcases isDig_facts '(' h1 with ⟨_, _, _, _, _, h6, _⟩
    exact h6 rfl
  · cases h1

/-- `_get_lowest_priority_operator` on the one-operation string returns the
operator (lower-priority operators have no match; the sign of `b` can match
the `-` scan only when `op` itself is scanned first). -/
theorem getLowest_lit (sa sb : Bool) (ca cb : List Char) (op : Char)
    (ha : UnsignedCore ca) (hb : UnsignedCore cb) (hop : op ∈ operators)
    (hsb : (op = '*' ∨ op = '^') → sb = false) :
    getLowestPriorityOperator (sgnChars sa ca ++ op :: sgnChars sb cb) = .ok (some op) := by
  unfold getLowestPriorityOperator
  rw [maskBrackets_noparen bracketFuel _ (by norm_num [bracketFuel])
    (litstr_noparen sa sb ca cb op ha hb hop)]
  have F : ∀ op2, op2 ∈ operators →
      findOps op2 none 0 (sgnChars sa ca ++ op :: sgnChars sb cb) =
        (if op2 = op then [(sgnChars sa ca).length] else []) ++
        (if sb = true ∧ op2 = '-' ∧ prevOk (some op) = true
          then [(sgnChars sa ca).length + 1] else []) :=
    fun op2 h2 => findOps_split_lit sa sb ca cb op op2 ha hb h2
  simp only [operators, List.mem_cons, List.not_mem_nil, or_false] at hop
  rcases hop with rfl | rfl | rfl | rfl | rfl
  · show Except.ok (operators.find? _) = _
    rw [operators]
    simp only [List.find?]
    rw [F '+' (by decide)]
    simp
  · show Except.ok (operators.find? _) = _
    rw [operators]
    simp only [List.find?]
    rw [F '+' (by decide), F '-' (by decide)]
    simp [prevOk]
  · show Except.ok (operators.find? _) = _
    rw [operators]
    simp only [List.find?]
    rw [F '+' (by decide), F '-' (by decide), F '/' (by decide)]
    simp [prevOk]
  · have hsbf : sb = false := hsb (Or.inl rfl)
    subst hsbf
    show Except.ok (operators.find? _) = _
    rw [operators]
    simp only [List.find?]
    rw [F '+' (by decide), F '-' (by decide), F '/' (by decide), F '*' (by decide)]
    simp
  · have hsbf : sb = false := hsb (Or.inr rfl)
    subst hsbf
    show Except.ok (operators.find? _) = _
    rw [operators]
    simp only [List.find?]
    rw [F '+' (by decide), F '-' (by decide), F '/' (by decide), F '*' (by decide),
      F '^' (by decide)]
    simp

/-- `parse_terms` on the one-operation string splits exactly at the operator,
returning the two signed literals. -/
theorem parseTerms_lit (sa sb : Bool) (ca cb : List Char) (op : Char)
    (ha : UnsignedCore ca) (hb : UnsignedCore cb) (hop : op ∈ operators)
    (hsb : (op = '*' ∨ op = '^') → sb = false) :
    parseTerms (sgnChars sa ca ++ op :: sgnChars sb cb) op =
      .ok (sgnChars sa ca, sgnChars sb cb) := by
  unfold parseTerms
  rw [maskBrackets_noparen bracketFuel _ (by norm_num [bracketFuel])
    (litstr_noparen sa sb ca cb op ha hb hop)]
  have F := findOps_split_lit sa sb ca cb op op ha hb hop
  have hsecond : (if sb = true ∧ op = '-' ∧ prevOk (some op) = true
      then [(sgnChars sa ca).length + 1] else []) = ([] : List Nat) := by
    by_cases h1 : sb = true ∧ op = '-' ∧ prevOk (some op) = true
    · obtain ⟨_, h2, h3⟩ := h1
      subst h2
      cases h3
    · rw [if_neg h1]
  dsimp only []
  rw [F, if_pos rfl, hsecond, List.append_nil, List.getLast?_singleton]
  dsimp only []
  have htake : (sgnChars sa ca ++ op :: sgnChars sb cb).take (sgnChars sa ca).length =
      sgnChars sa ca := List.take_left _ _
  have hdrop : (sgnChars sa ca ++ op :: sgnChars sb cb).drop ((sgnChars sa ca).length + 1) =
      sgnChars sb cb := by
    have : sgnChars sa ca ++ op :: sgnChars sb cb =
        (sgnChars sa ca ++ [op]) ++ sgnChars sb cb := by simp
    rw [this]
    have hlen : (sgnChars sa ca).length + 1 = (sgnChars sa ca ++ [op]).length := by simp
    rw [hlen]
    exact List.drop_left _ _
  rw [htake, hdrop]

/-- Digit-run consumption on an all-digit block followed by a non-digit,
non-underscore boundary (or the end). -/
theorem parseDigitsCore_digits : ∀ (ds rest : List Char) (acc k : Nat),
    (∀ c ∈ ds, isDig c = true) →
    (rest = [] ∨ ∃ r0 rt, rest = r0 :: rt ∧ isDig r0 = false ∧ r0 ≠ '_') →
    parseDigitsCore (ds ++ rest) acc k =
      (ds.foldl (fun a c => 10 * a + (c.toNat - 48)) acc, k + ds.length, rest) := by
  intro ds
  induction ds with
  | nil =>
    intro rest acc k _ hrest
    rcases hrest with rfl | ⟨r0, rt, rfl, hr0, hr0u⟩
    · rfl
    · show parseDigitsCore (r0 :: rt) acc k = _
      rw [parseDigitsCore.eq_def]
      dsimp only []
      rw [if_neg (by simp [hr0]), if_neg (by simp [hr0u])]
      simp
  | cons d ds ih =>
    intro rest acc k hds hrest
    show parseDigitsCore (d :: (ds ++ rest)) acc k = _
    rw [parseDigitsCore.eq_def]
    dsimp only []
    rw [if_pos (by simpa using hds d (by simp))]
    rw [ih rest _ _ (fun c hc => hds c (by simp [hc])) hrest]
    simp only [List.foldl_cons, List.length_cons]
    have : k + 1 + ds.length = k + (ds.length + 1) := by omega
    rw [this]

theorem parseExponent_nil (q : Frac) : parseExponent q [] = some (q, []) := rfl

/-- The value of an unsigned core literal: `parseNumber` consumes it fully,
with a positive power-of-ten denominator and a non-negative numerator. -/
theorem parseNumber_core (c : List Char) (h : UnsignedCore c) :
    ∃ q : Frac, parseNumber c = some (q, []) ∧ q.den ≠ 0 ∧ 0 ≤ q.num := by
  obtain ⟨ds, fs, hne, hds, hshape⟩ := h
  obtain ⟨d0, t0, hdt, hd0⟩ := core_head_dig c ⟨ds, fs, hne, hds, hshape⟩
  have hd0dot : d0 ≠ '.' := (isDig_facts d0 hd0).2.2.2.2.2.2.2.1
  rcases hshape with ⟨heq, _⟩ | ⟨heq, hfne, hfs⟩
  · -- integer form: c = ds
    refine ⟨⟨(ds.foldl (fun a c => 10 * a + (c.toNat - 48)) 0 : Nat), 1⟩, ?_, by simp, by positivity⟩
    rw [heq] at hdt ⊢
    have hcond : ¬((ds.head? == some '.') = true) := by
      rw [hdt, List.head?_cons]
      simp [hd0dot]
    rw [parseNumber.eq_def, if_neg hcond]
    have hdig := parseDigitsCore_digits ds [] 0 0 hds (Or.inl rfl)
    rw [List.append_nil] at hdig
    rw [hdig]
    dsimp only []
    have hk : ¬(0 + ds.length = 0) := by
      simp only [Nat.zero_add]
      intro hcc
      exact hne (List.length_eq_zero.1 hcc)
    rw [if_neg hk]
    have hc2 : ¬((([] : List Char).head? == some '.') = true) := by decide
    rw [if_neg hc2, parseExponent_nil]
  · -- decimal form: c = ds ++ '.' :: fs
    refine ⟨⟨((ds.foldl (fun a c => 10 * a + (c.toNat - 48)) 0 : Nat) *
        (10 ^ fs.length : Nat) + (fs.foldl (fun a c => 10 * a + (c.toNat - 48)) 0 : Nat) : Int),
      10 ^ fs.length⟩, ?_, by positivity, by positivity⟩
    rw [heq] at hdt ⊢
    have hcond : ¬(((ds ++ '.' :: fs).head? == some '.') = true) := by
      rw [hdt, List.head?_cons]
      simp [hd0dot]
    rw [parseNumber.eq_def, if_neg hcond]
    have hdig := parseDigitsCore_digits ds ('.' :: fs) 0 0 hds
      (Or.inr ⟨'.', fs, rfl, by decide, by decide⟩)
    rw [hdig]
    dsimp only []
    have hk : ¬(0 + ds.length = 0) := by
      simp only [Nat.zero_add]
      intro hcc
      exact hne (List.length_eq_zero.1 hcc)
    rw [if_neg hk]
    have hc2 : ((('.' :: fs).head? == some '.') = true) := rfl
    rw [if_pos hc2]
    simp only [List.drop_succ_cons, List.drop_zero]
    have hfdig := parseDigitsCore_digits fs [] 0 0 hfs (Or.inl rfl)
    rw [List.append_nil] at hfdig
    rw [hfdig]
    dsimp only []
    rw [parseExponent_nil]
    simp

/-- `litFrac` realizes the existential of `parseNumber_core`. -/
theorem litFrac_spec (c : List Char) (h : UnsignedCore c) :
    parseNumber c = some (litFrac c, []) ∧ (litFrac c).den ≠ 0 ∧ 0 ≤ (litFrac c).num := by
  obtain ⟨q, hq, hd, hn⟩ := parseNumber_core c h
  have hlf : litFrac c = q := by
    unfold litFrac
    rw [hq]
  rw [hlf]
  exact ⟨hq, hd, hn⟩

theorem sgnChars_getLast (s : Bool) (c : List Char) (h : UnsignedCore c) :
    ∃ d, (sgnChars s c).getLast? = some d ∧ isDig d = true := by
  obtain ⟨d, hdl, hdd⟩ := core_last_dig c h
  refine ⟨d, ?_, hdd⟩
  obtain ⟨d0, t0, hct, _⟩ := core_head_dig c h
  cases s with
  | false => exact hdl
  | true =>
    show ('-' :: c).getLast? = some d
    rw [hct] at hdl ⊢
    rw [List.getLast?_cons_cons]
    exact hdl

/-- Dropping leading whitespace does nothing when the head is not
whitespace. -/
theorem dropWhile_head_keep (l : List Char) (h : l = [] ∨ ∃ c t, l = c :: t ∧ isSpaceChar c = false) :
    l.dropWhile isSpaceChar = l := by
  rcases h with rfl | ⟨c, t, rfl, hc⟩
  · rfl
  · rw [List.dropWhile_cons, hc]
    simp

theorem sgnChars_head (s : Bool) (c : List Char) (h : UnsignedCore c) :
    ∃ c0 t, sgnChars s c = c0 :: t ∧ isSpaceChar c0 = false := by
  obtain ⟨d0, t0, hct, hd0⟩ := core_head_dig c h
  cases s with
  | false => exact ⟨d0, t0, hct, (isDig_facts d0 hd0).2.2.2.2.2.2.2.2.2.1⟩
  | true => exact ⟨'-', c, rfl, by decide⟩

/-- Stripping trailing whitespace does nothing when the last character is not
whitespace. -/
theorem stripTail_keep (l : List Char)
    (h : l = [] ∨ ∃ d, l.getLast? = some d ∧ isSpaceChar d = false) : stripTail l = l := by
  rcases h with rfl | ⟨d, hdl, hd⟩
  · rfl
  · unfold stripTail
    have hsplit := List.dropLast_append_getLast? d hdl
    calc (l.reverse.dropWhile isSpaceChar).reverse
        = (((l.dropLast ++ [d]).reverse).dropWhile isSpaceChar).reverse := by rw [hsplit]
      _ = ((d :: l.dropLast.reverse).dropWhile isSpaceChar).reverse := by
            rw [List.reverse_append]
            rfl
      _ = (d :: l.dropLast.reverse).reverse := by
            rw [List.dropWhile_cons, hd]
            simp
      _ = l.dropLast ++ [d] := by simp
      _ = l := hsplit

/-- `eval`'s reading of a signed-literal operand token: the optional minus is
the sign, and the digits form the magnitude. -/
theorem pyEvalLitParse_lit (s : Bool) (c : List Char) (h : UnsignedCore c) :
    pyEvalLitParse (sgnChars s c) = .ok (s, litFrac c) := by
  obtain ⟨d0, t0, hct, hd0⟩ := core_head_dig c h
  obtain ⟨hp1, hm1, _, _, _, _, _, _, hu1, _, ha1, _⟩ := isDig_facts d0 hd0
  have hdw : (sgnChars s c).dropWhile isSpaceChar = sgnChars s c :=
    dropWhile_head_keep _ (Or.inr (sgnChars_head s c h))
  have hbody : ∀ (sgn : Bool),
      (match c with
        | c0 :: _ =>
          if c0.isAlpha || c0 = '_' then Except.error PyErr.nameError
          else
            match parseNumber c with
            | some (q, rest) =>
              if (rest.dropWhile isSpaceChar).isEmpty then Except.ok (sgn, q)
              else Except.error PyErr.badLiteral
            | none => Except.error PyErr.badLiteral
        | [] => Except.error PyErr.badLiteral) = Except.ok (sgn, litFrac c) := by
    intro sgn
    rw [hct]
    dsimp only []
    have hcondA : ¬((d0.isAlpha || d0 = '_') = true) := by simp [ha1, hu1]
    rw [if_neg hcondA]
    rw [← hct, (litFrac_spec c h).1]
    dsimp only []
    rfl
  cases s with
  | true => exact hbody true
  | false =>
    have hsgn : (c.head? == some '-') = false := by
      rw [hct, List.head?_cons]
      simp [hm1]
    have hpls : (c.head? == some '+') = false := by
      rw [hct, List.head?_cons]
      simp [hp1]
    unfold pyEvalLitParse
    rw [hdw]
    dsimp only [sgnChars]
    rw [hsgn, hpls]
    exact hbody false

/-- `float()` accepts every signed literal token, so `no_funny_stuff`
passes on it. -/
theorem pyFloatParseable_lit (s : Bool) (c : List Char) (h : UnsignedCore c) :
    pyFloatParseable (sgnChars s c) = true := by
  obtain ⟨d0, t0, hct, hd0⟩ := core_head_dig c h
  obtain ⟨hp1, hm1, _⟩ := isDig_facts d0 hd0
  have hdw : (sgnChars s c).dropWhile isSpaceChar = sgnChars s c :=
    dropWhile_head_keep _ (Or.inr (sgnChars_head s c h))
  have hst : stripTail (sgnChars s c) = sgnChars s c := by
    obtain ⟨d, hdl, hdd⟩ := sgnChars_getLast s c h
    exact stripTail_keep _ (Or.inr ⟨d, hdl, (isDig_facts d hdd).2.2.2.2.2.2.2.2.2.1⟩)
  have hbody : (isInfNan c ||
      (match parseNumber c with
       | some (_, rest) => rest.isEmpty
       | none => false)) = true := by
    rw [(litFrac_spec c h).1]
    simp
  cases s with
  | true =>
    unfold pyFloatParseable
    rw [hdw, hst]
    exact hbody
  | false =>
    have hsgn : (c.head? == some '-') = false := by
      rw [hct, List.head?_cons]
      simp [hm1]
    have hpls : (c.head? == some '+') = false := by
      rw [hct, List.head?_cons]
      simp [hp1]
    unfold pyFloatParseable
    rw [hdw, hst]
    dsimp only [sgnChars]
    rw [hsgn, hpls]
    exact hbody

/-- Parsing the one-operation signed-literal string yields the two-leaf tree
(for `*` and `^` the right token must be unsigned, else its sign would be the
split operator). -/
theorem build_lit (sa sb : Bool) (ca cb : List Char) (op : Char)
    (ha : UnsignedCore ca) (hb : UnsignedCore cb) (hop : op ∈ operators)
    (hsb : (op = '*' ∨ op = '^') → sb = false) :
    pyParse (String.mk (sgnChars sa ca ++ op :: sgnChars sb cb)) =
      .ok (.mk (.ofStr (sgnChars sa ca)) (.ofStr (sgnChars sb cb)) op false) := by
  have hcont : operators.contains op = true := by
    have hop2 := hop
    simp only [operators, List.mem_cons, List.not_mem_nil, or_false] at hop2
    rcases hop2 with rfl | rfl | rfl | rfl | rfl <;> rfl
  have hvalid : (validOperand (.ofStr (sgnChars sa ca)) &&
      validOperand (.ofStr (sgnChars sb cb)) && operators.contains op) = true := by
    dsimp only [validOperand]
    rw [pyFloatParseable_lit sa ca ha, pyFloatParseable_lit sb cb hb, hcont]
    rfl
  have h00 : ¬(0 < 0) := by omega
  have key : ∀ n, buildExpr (n + 1) (sgnChars sa ca ++ op :: sgnChars sb cb) false =
      .ok (.mk (.ofStr (sgnChars sa ca)) (.ofStr (sgnChars sb cb)) op false) := by
    intro n
    rw [buildExpr]
    rw [getLowest_lit sa sb ca cb op ha hb hop hsb]
    dsimp only []
    rw [parseTerms_lit sa sb ca cb op ha hb hop hsb]
    dsimp only []
    rw [countOperators_sgnLit sa ca ha, countOperators_sgnLit sb cb hb]
    rw [if_neg h00, if_neg h00]
    dsimp only []
    unfold mkExpression
    rw [if_pos hvalid]
  show build (sgnChars sa ca ++ op :: sgnChars sb cb) = _
  unfold build
  rw [key (sgnChars sa ca ++ op :: sgnChars sb cb).length]

theorem sgnLitFrac_den (s : Bool) (c : List Char) :
    (sgnLitFrac s c).den = (litFrac c).den := by
  cases s <;> rfl

theorem Frac.val_add (a b : Frac) (ha : a.den ≠ 0) (hb : b.den ≠ 0) :
    (a.add b).val = a.val + b.val := by
  have ha2 : (a.den : ℚ) ≠ 0 := Nat.cast_ne_zero.mpr ha
  have hb2 : (b.den : ℚ) ≠ 0 := Nat.cast_ne_zero.mpr hb
  simp only [Frac.add, Frac.val]
  push_cast
  field_simp

theorem Frac.val_sub (a b : Frac) (ha : a.den ≠ 0) (hb : b.den ≠ 0) :
    (a.sub b).val = a.val - b.val := by
  have ha2 : (a.den : ℚ) ≠ 0 := Nat.cast_ne_zero.mpr ha
  have hb2 : (b.den : ℚ) ≠ 0 := Nat.cast_ne_zero.mpr hb
  simp only [Frac.sub, Frac.val]
  push_cast
  field_simp
  ring

theorem Frac.val_mul (a b : Frac) : (a.mul b).val = a.val * b.val := by
  simp only [Frac.mul, Frac.val]
  push_cast
  rw [div_mul_div_comm]

theorem Frac.val_div (a b : Frac) (ha : a.den ≠ 0) (hb : b.den ≠ 0)
    (hbn : b.num ≠ 0) : (a.div b).val = a.val / b.val := by
  have ha2 : (a.den : ℚ) ≠ 0 := Nat.cast_ne_zero.mpr ha
  have hb2 : (b.den : ℚ) ≠ 0 := Nat.cast_ne_zero.mpr hb
  have hn2 : (b.num : ℚ) ≠ 0 := Int.cast_ne_zero.mpr hbn
  simp only [Frac.div, Frac.val]
  by_cases hlt : b.num < 0
  · rw [if_pos hlt]
    push_cast [Int.cast_natAbs]
    rw [abs_of_neg (show (b.num : ℚ) < 0 by exact_mod_cast hlt)]
    field_simp
  · rw [if_neg hlt]
    push_cast [Int.cast_natAbs]
    rw [abs_of_nonneg (show (0 : ℚ) ≤ (b.num : ℚ) by exact_mod_cast not_lt.mp hlt)]
    field_simp

/-- Evaluating the one-operation leaf tree gives the standard application of
the operator to the signed literal values (for `^` both tokens unsigned, for
`/` a non-zero divisor). -/
theorem calcQ_lit (fpow : Frac → Frac → Frac) (sa sb : Bool) (ca cb : List Char) (op : Char)
    (ha : UnsignedCore ca) (hb : UnsignedCore cb) (hop : op ∈ operators)
    (hsa : op = '^' → sa = false) (hsbe : op = '^' → sb = false)
    (hdiv : op = '/' → (litFrac cb).num ≠ 0) :
    calcQ fpow (Expr.mk (.ofStr (sgnChars sa ca)) (.ofStr (sgnChars sb cb)) op false) =
      .ok (stdApplyQ fpow op (sgnLitFrac sa ca) (sgnLitFrac sb cb)) := by
  have hda : (sgnLitFrac sa ca).den ≠ 0 := by
    rw [sgnLitFrac_den]
    exact (litFrac_spec ca ha).2.1
  have hdb : (sgnLitFrac sb cb).den ≠ 0 := by
    rw [sgnLitFrac_den]
    exact (litFrac_spec cb hb).2.1
  simp only [operators, List.mem_cons, List.not_mem_nil, or_false] at hop
  rcases hop with rfl | rfl | rfl | rfl | rfl
  · -- '+'
    have hcalc : calculate fpow
        (Expr.mk (.ofStr (sgnChars sa ca)) (.ofStr (sgnChars sb cb)) '+' false) =
        .ok ((sgnLitFrac sa ca).add (sgnLitFrac sb cb)) := by
      show pyEvalBin fpow (.lit (sgnChars sa ca)) '+' (.lit (sgnChars sb cb)) = _
      unfold pyEvalBin
      dsimp only [resolvedSignMag]
      rw [pyEvalLitParse_lit sa ca ha, pyEvalLitParse_lit sb cb hb]
      rfl
    exact calcQ_of_ok fpow _ _ _ hcalc ((Frac.val_add _ _ hda hdb).trans (by rfl))
  · -- '-'
    have hcalc : calculate fpow
        (Expr.mk (.ofStr (sgnChars sa ca)) (.ofStr (sgnChars sb cb)) '-' false) =
        .ok ((sgnLitFrac sa ca).sub (sgnLitFrac sb cb)) := by
      show pyEvalBin fpow (.lit (sgnChars sa ca)) '-' (.lit (sgnChars sb cb)) = _
      unfold pyEvalBin
      dsimp only [resolvedSignMag]
      rw [pyEvalLitParse_lit sa ca ha, pyEvalLitParse_lit sb cb hb]
      rfl
    exact calcQ_of_ok fpow _ _ _ hcalc ((Frac.val_sub _ _ hda hdb).trans (by rfl))
  · -- '/'
    have hnz : (sgnLitFrac sb cb).num ≠ 0 := by
      have h0 := hdiv rfl
      cases sb with
      | false => exact h0
      | true =>
        show ((litFrac cb).neg).num ≠ 0
        simp only [ne_eq, Frac.neg, neg_eq_zero]
        exact h0
    have hz : (sgnLitFrac sb cb).isZero = false := by
      simp only [Frac.isZero, beq_eq_false_iff_ne, ne_eq]
      exact hnz
    have hcalc : calculate fpow
        (Expr.mk (.ofStr (sgnChars sa ca)) (.ofStr (sgnChars sb cb)) '/' false) =
        .ok ((sgnLitFrac sa ca).div (sgnLitFrac sb cb)) := by
      have h1 : calculate fpow
          (Expr.mk (.ofStr (sgnChars sa ca)) (.ofStr (sgnChars sb cb)) '/' false) =
          (if (sgnLitFrac sb cb).isZero = true
            then (Except.error PyErr.zeroDivision : Except PyErr Frac)
            else .ok ((sgnLitFrac sa ca).div (sgnLitFrac sb cb))) := by
        show pyEvalBin fpow (.lit (sgnChars sa ca)) '/' (.lit (sgnChars sb cb)) = _
        unfold pyEvalBin
        dsimp only [resolvedSignMag]
        rw [pyEvalLitParse_lit sa ca ha, pyEvalLitParse_lit sb cb hb]
        rfl
      rw [h1, hz]
      rfl
    refine calcQ_of_ok fpow _ _ _ hcalc ?_
    rw [Frac.val_div _ _ hda hdb hnz]
    rfl
  · -- '*'
    have hcalc : calculate fpow
        (Expr.mk (.ofStr (sgnChars sa ca)) (.ofStr (sgnChars sb cb)) '*' false) =
        .ok ((sgnLitFrac sa ca).mul (sgnLitFrac sb cb)) := by
      show pyEvalBin fpow (.lit (sgnChars sa ca)) '*' (.lit (sgnChars sb cb)) = _
      unfold pyEvalBin
      dsimp only [resolvedSignMag]
      rw [pyEvalLitParse_lit sa ca ha, pyEvalLitParse_lit sb cb hb]
      rfl
    exact calcQ_of_ok fpow _ _ _ hcalc ((Frac.val_mul _ _).trans (by rfl))
  · -- '^'
    have hsaf := hsa rfl
    have hsbf := hsbe rfl
    subst hsaf
    subst hsbf
    have hnneg : (litFrac cb).isNeg = false := by
      have h0 := (litFrac_spec cb hb).2.2
      simp only [Frac.isNeg, decide_eq_false_iff_not, not_lt]
      exact h0
    have hpp : pyPosPow fpow (litFrac ca) (litFrac cb) =
        .ok (mathPow fpow (litFrac ca) (litFrac cb)) := by
      unfold pyPosPow
      rw [hnneg, Bool.and_false]
      rfl
    have hfin : (match pyPosPow fpow (litFrac ca) (litFrac cb) with
        | Except.ok p => (Except.ok p : Except PyErr Frac)
        | Except.error e => Except.error e) =
        Except.ok (mathPow fpow (litFrac ca) (litFrac cb)) := by
      rw [hpp]
    have hcalc : calculate fpow
        (Expr.mk (.ofStr (sgnChars false ca)) (.ofStr (sgnChars false cb)) '^' false) =
        .ok (mathPow fpow (litFrac ca) (litFrac cb)) := by
      show pyEvalBin fpow (.lit (sgnChars false ca)) '^' (.lit (sgnChars false cb)) = _
      unfold pyEvalBin
      dsimp only [resolvedSignMag]
      rw [pyEvalLitParse_lit false ca ha, pyEvalLitParse_lit false cb hb]
      exact hfin
    exact calcQ_of_ok fpow _ _ _ hcalc (by rfl)

/-! ## Claim C1 — parse-then-evaluate on one-operation literal strings -/

/-- C1: the claim fails as stated.  With a negative right literal the string
`"2*-3"` does not evaluate to `2 * (-3)`: the sign of `-3` is itself chosen
as the split operator and parsing fails with ValueError.  With a negative
left literal the string `"-2^2"` parses, but `eval` applies the unary minus
after the power, returning `-(2^2) = -4` instead of the standard
`(-2)^2 = 4`. -/
theorem claim1_counterexample :
    parseCalcQ anyPow "2*-3" = .error PyErr.valueErrorOperand ∧
    parseCalcQ anyPow "-2^2" = .ok (-4 : ℚ) ∧
    stdApplyQ anyPow '^' ⟨-2, 1⟩ ⟨2, 1⟩ = (4 : ℚ) ∧ (-4 : ℚ) ≠ (4 : ℚ) := by
  refine ⟨?_, ?_, ?_, by norm_num⟩
  · exact parseCalcQ_of_error anyPow _ _ (by rfl)
  · exact parseCalcQ_of_ok anyPow _ ⟨-4, 1⟩ _ (by rfl) (by norm_num [Frac.val])
  · have h1 : mathPow anyPow ⟨-2, 1⟩ ⟨2, 1⟩ = ⟨4, 1⟩ := by rfl
    show (mathPow anyPow ⟨-2, 1⟩ ⟨2, 1⟩).val = 4
    rw [h1]
    norm_num [Frac.val]

/-- C1 (amended): restricted to the operand shapes the code actually handles,
the claim holds.  For signed decimal literal tokens — where the right token is
unsigned when the operator is `*` or `^` (otherwise its sign is chosen as the
split operator and parsing fails), the left token is unsigned when the
operator is `^` (otherwise `eval` applies the unary minus after the power),
and the divisor's value is non-zero for `/` — the concatenated string parses
to the two-leaf tree and evaluates to the standard application of the
operator to the two signed literal values. -/
theorem claim1_amended (fpow : Frac → Frac → Frac) (sa sb : Bool) (ca cb : List Char)
    (op : Char) (ha : UnsignedCore ca) (hb : UnsignedCore cb) (hop : op ∈ operators)
    (hsb : (op = '*' ∨ op = '^') → sb = false) (hsa : op = '^' → sa = false)
    (hdiv : op = '/' → (litFrac cb).num ≠ 0) :
    pyParse (String.mk (sgnChars sa ca ++ op :: sgnChars sb cb)) =
      .ok (.mk (.ofStr (sgnChars sa ca)) (.ofStr (sgnChars sb cb)) op false) ∧
    parseCalcQ fpow (String.mk (sgnChars sa ca ++ op :: sgnChars sb cb)) =
      .ok (stdApplyQ fpow op (sgnLitFrac sa ca) (sgnLitFrac sb cb)) := by
  have hbuild := build_lit sa sb ca cb op ha hb hop hsb
  refine ⟨hbuild, ?_⟩
  have hcq := calcQ_lit fpow sa sb ca cb op ha hb hop hsa (fun h2 => hsb (Or.inr h2)) hdiv
  unfold calcQ at hcq
  show (parseCalc fpow _).map Frac.val = _
  unfold parseCalc
  rw [hbuild]
  exact hcq

/-- Witness instantiating the amended C1: `"2+3"` parses to the two-leaf tree
and evaluates to `2 + 3 = 5`. -/
theorem claim1_amended_witness :
    pyParse "2+3" = .ok (.mk (.ofStr ['2']) (.ofStr ['3']) '+' false) ∧
    parseCalcQ anyPow "2+3" = .ok (5 : ℚ) := by
  have h := claim1_amended anyPow false false ['2'] ['3'] '+'
    ⟨['2'], [], by decide, by decide, Or.inl ⟨rfl, rfl⟩⟩
    ⟨['3'], [], by decide, by decide, Or.inl ⟨rfl, rfl⟩⟩
    (by decide)
    (fun _ => rfl) (fun _ => rfl)
    (fun h2 => absurd h2 (by decide))
  refine ⟨h.1, ?_⟩
  refine (h.2).trans ?_
  have e2 : sgnLitFrac false ['2'] = ⟨2, 1⟩ := by rfl
  have e3 : sgnLitFrac false ['3'] = ⟨3, 1⟩ := by rfl
  rw [e2, e3]
  have hstd : stdApplyQ anyPow '+' ⟨2, 1⟩ ⟨3, 1⟩ = (5 : ℚ) := by
    show Frac.val ⟨2, 1⟩ + Frac.val ⟨3, 1⟩ = 5
    norm_num [Frac.val]
  rw [hstd]

end PyExpr
